import Mathlib

/-!
Verification development for the Pitman-Yor Chinese Restaurant Process
structure `cpyp::crp` of `src/cpyp/crp.h`.

Shallow embedding conventions:
* Machine integers: the C++ counters `num_tables_` / `num_customers_` are
  `unsigned`; they are embedded as `Nat`.  The only subtractions the code
  performs happen under preconditions (established below) that keep the
  counters strictly positive, so no wrap-around can occur and truncated
  `Nat` subtraction agrees with the unsigned semantics.
* Doubles (`discount_`, `strength_`, prior parameters, probabilities) are
  embedded as real numbers.
* Randomness: every stochastic primitive receives the random engine as an
  explicit stream of naturals (`Engine`) and returns the unconsumed rest of
  the stream.  Each elementary random decision consumes exactly one element
  of the stream; the element carries the outcome of the decision.  Claims
  are quantified over all streams, hence over all possible outcomes.
* The collaborators that `crp.h` includes but whose sources are not part of
  this repository snapshot (`crp_table_manager.h`, `random.h`, `m.h`,
  `slice_sampler.h`) are modelled from the specification's interface
  contracts; each such definition carries a doc comment starting with
  `Modelled from the spec:`.
* Fallible operations (C `assert`) are embedded with `Except`/`Option`:
  `Except.error st` means the assertion fired, and `st` is the state of the
  object at the moment of detection.
-/

namespace Cpyp

/-- Random engine: an explicit stream of naturals, one consumed per
elementary random decision (see module conventions above). -/
abbrev Engine : Type := List Nat

/-- Table manager of one dish.  Modelled from the spec: `TableHistogram`
(`crp_table_manager.h` is not in `src/`); the spec tracks the multiset of
table occupancies of one dish via an occupancy histogram.  We model the
same data as the list of the occupancies of the individual tables (the
histogram is recovered by aggregation; every quantity used by `crp.h` —
table count, customer count, occupancy bins — factors through it). -/
abbrev TM : Type := List Nat

/-- Modelled from the spec: `TableHistogram.numCustomers` (O(1) customer
count: total number of customers seated for this dish). -/
def TM.num_customers (t : TM) : Nat := t.sum

/-- Modelled from the spec: `TableHistogram.numTables` (O(1) table count). -/
def TM.num_tables (t : TM) : Nat := t.length

/-- Modelled from the spec: `TableHistogram.createTable` adds one table
with one customer. -/
def TM.create_table (t : TM) : TM := 1 :: t

/-- Modelled from the spec: `TableHistogram.shareTable discount rng` selects
one existing table weighted by `occupancy - discount` and adds one customer
to it.  Every table has occupancy at least 1 > discount, so every table has
positive weight; the drawn natural (mod the table count) carries which table
is selected.  The discount only shapes the distribution, never the support,
so it does not appear in the outcome. -/
def TM.share_table (discount : ℝ) (t : TM) (eng : Engine) : TM × Engine :=
  let i : Nat := eng.headD 0 % t.length
  (t.set i (t.getD i 0 + 1), eng.tail)

/-- Modelled from the spec: `TableHistogram.removeCustomer rng` selects and
removes one customer weighted by table occupancy (every table has positive
occupancy, hence positive weight; the drawn natural mod the table count
carries which table loses a customer), closing the table if it becomes
empty, and signals `-1` if a table closed, else `0` (the signal is returned
unchanged by `crp::decrement`, whose contract is `-1` or `0`). -/
def TM.remove_customer (t : TM) (eng : Engine) : Int × TM × Engine :=
  let i : Nat := eng.headD 0 % t.length
  let sz : Nat := t.getD i 0
  if sz ≤ 1 then (-1, t.eraseIdx i, eng.tail)
  else (0, t.set i (sz - 1), eng.tail)

/-- Modelled from the spec: the weighted binary choice of `random.h`
(`sample_bernoulli(p_empty, p_share, eng)` in `crp::increment`).  It
consumes exactly one draw; the drawn natural carries the outcome (`true` =
share an existing table).  At the single call site both weights are
positive, so both outcomes are possible and the weights only shape the
distribution, which the embedding quantifies over via the stream. -/
def sample_bernoulli (p_empty p_share : ℝ) (eng : Engine) : Bool × Engine :=
  (decide (eng.headD 0 % 2 = 1), eng.tail)

section AssocList

variable {D : Type} [DecidableEq D]

/-- Lookup in the association list embedding of `std::unordered_map<Dish,
crp_table_manager>` (`dish_locs_`): value stored at the first matching
key. -/
def alookup : List (D × TM) → D → Option TM
  | [], _ => none
  | p :: ps, d => if p.1 = d then some p.2 else alookup ps d

/-- Embedding of `dish_locs_[dish]`'s insertion side effect: C++
`operator[]` default-constructs an empty table manager under the key if the
key is absent, and otherwise leaves the map unchanged. -/
def insertIfAbsent (d : D) (ps : List (D × TM)) : List (D × TM) :=
  match alookup ps d with
  | some _ => ps
  | none => (d, ([] : TM)) :: ps

/-- Embedding of overwriting the mapped value at an existing key (the
mutation of the `crp_table_manager&` reference obtained from
`dish_locs_[dish]`). -/
def aupdate (d : D) (t : TM) : List (D × TM) → List (D × TM)
  | [] => []
  | p :: ps => if p.1 = d then (d, t) :: ps else p :: aupdate d t ps

/-- Embedding of `dish_locs_.erase(dish)`. -/
def aerase (d : D) : List (D × TM) → List (D × TM)
  | [] => []
  | p :: ps => if p.1 = d then ps else p :: aerase d ps

/-- Total number of customers recorded in the per-dish table managers. -/
def customersSum (l : List (D × TM)) : Nat :=
  (l.map (fun p => TM.num_customers p.2)).sum

/-- Total number of tables recorded in the per-dish table managers. -/
def tablesSum (l : List (D × TM)) : Nat :=
  (l.map (fun p => TM.num_tables p.2)).sum

end AssocList

section ListLemmas

/-- Sum of a list after overwriting one position, stated additively to stay
in `Nat`. -/
theorem sum_set_add (l : List Nat) (i v : Nat) (h : i < l.length) :
    (l.set i v).sum + l.getD i 0 = l.sum + v := by
  induction l generalizing i with
  | nil => simp at h
  | cons a t ih =>
      cases i with
      | zero =>
          simp only [List.set, List.sum_cons, List.getD_cons_zero]
          omega
      | succ j =>
          have hj : j < t.length := by simpa using h
          have := ih j hj
          simp only [List.set, List.sum_cons, List.getD_cons_succ]
          omega

/-- Sum of a list after deleting one position, stated additively. -/
theorem sum_eraseIdx_add (l : List Nat) (i : Nat) (h : i < l.length) :
    (l.eraseIdx i).sum + l.getD i 0 = l.sum := by
  induction l generalizing i with
  | nil => simp at h
  | cons a t ih =>
      cases i with
      | zero =>
          simp only [List.eraseIdx, List.sum_cons, List.getD_cons_zero]
          omega
      | succ j =>
          have hj : j < t.length := by simpa using h
          have := ih j hj
          simp only [List.eraseIdx, List.sum_cons, List.getD_cons_succ]
          omega

/-- Length of a list after deleting one position, stated additively. -/
theorem length_eraseIdx_add (l : List Nat) (i : Nat) (h : i < l.length) :
    (l.eraseIdx i).length + 1 = l.length := by
  induction l generalizing i with
  | nil => simp at h
  | cons a t ih =>
      cases i with
      | zero => simp [List.eraseIdx]
      | succ j =>
          have hj : j < t.length := by simpa using h
          have := ih j hj
          simp [List.eraseIdx]
          omega

/-- A defaulted read at an in-bounds position is a member of the list. -/
theorem getD_mem_of_lt (l : List Nat) (i : Nat) (h : i < l.length) :
    l.getD i 0 ∈ l := by
  induction l generalizing i with
  | nil => simp at h
  | cons a t ih =>
      cases i with
      | zero => simp
      | succ j =>
          have hj : j < t.length := by simpa using h
          simpa [List.getD_cons_succ] using Or.inr (ih j hj)

/-- A list of positive naturals has at least as many in its sum as in its
length (each table seats at least one customer). -/
theorem length_le_sum_of_one_le (l : List Nat) (h : ∀ x ∈ l, 1 ≤ x) :
    l.length ≤ l.sum := by
  induction l with
  | nil => simp
  | cons a t ih =>
      have ha : 1 ≤ a := h a (by simp)
      have ht : ∀ x ∈ t, 1 ≤ x := fun x hx => h x (by simp [hx])
      have := ih ht
      simp only [List.length_cons, List.sum_cons]
      omega

end ListLemmas

section AssocLemmas

variable {D : Type} [DecidableEq D]

theorem alookup_cons_self (d : D) (t : TM) (ps : List (D × TM)) :
    alookup ((d, t) :: ps) d = some t := by
  simp [alookup]

theorem alookup_mem {l : List (D × TM)} {d : D} {t : TM}
    (h : alookup l d = some t) : (d, t) ∈ l := by
  induction l with
  | nil => simp [alookup] at h
  | cons p ps ih =>
      rcases p with ⟨a, b⟩
      by_cases hp : a = d
      · subst hp
        simp [alookup] at h
        subst h
        exact List.mem_cons_self _ _
      · simp [alookup, hp] at h
        exact List.mem_cons_of_mem _ (ih h)

theorem alookup_eq_none_of_not_mem_keys {l : List (D × TM)} {d : D}
    (h : d ∉ l.map Prod.fst) : alookup l d = none := by
  induction l with
  | nil => rfl
  | cons p ps ih =>
      simp only [List.map_cons, List.mem_cons] at h
      push_neg at h
      have hp : p.1 ≠ d := fun hpd => h.1 hpd.symm
      simp [alookup, hp, ih h.2]

theorem not_mem_keys_of_alookup_none {l : List (D × TM)} {d : D}
    (h : alookup l d = none) : d ∉ l.map Prod.fst := by
  induction l with
  | nil => simp
  | cons p ps ih =>
      by_cases hp : p.1 = d
      · simp [alookup, hp] at h
      · simp [alookup, hp] at h
        simp only [List.map_cons, List.mem_cons]
        push_neg
        exact ⟨fun hdp => hp hdp.symm, ih h⟩

/-- Decomposition of an association list at the first occurrence of a key,
together with the action of `aupdate` and `aerase` on the decomposition. -/
theorem alookup_split {l : List (D × TM)} {d : D} {t : TM}
    (h : alookup l d = some t) :
    ∃ l1 l2, l = l1 ++ (d, t) :: l2 ∧ (∀ p ∈ l1, p.1 ≠ d) := by
  induction l with
  | nil => simp [alookup] at h
  | cons p ps ih =>
      by_cases hp : p.1 = d
      · simp [alookup, hp] at h
        refine ⟨[], ps, ?_, by simp⟩
        cases p
        simp_all
      · simp [alookup, hp] at h
        obtain ⟨l1, l2, hl, hk⟩ := ih h
        exact ⟨p :: l1, l2, by simp [hl], by
          intro q hq
          rcases List.mem_cons.mp hq with hq | hq
          · subst hq; exact hp
          · exact hk q hq⟩

theorem aupdate_append (d : D) (t' : TM) (l1 l2 : List (D × TM)) (t : TM)
    (hk : ∀ p ∈ l1, p.1 ≠ d) :
    aupdate d t' (l1 ++ (d, t) :: l2) = l1 ++ (d, t') :: l2 := by
  induction l1 with
  | nil => simp [aupdate]
  | cons p ps ih =>
      have hp : p.1 ≠ d := hk p (by simp)
      simp only [List.cons_append, aupdate, hp, if_neg]
      simp [ih (fun q hq => hk q (by simp [hq]))]

theorem aerase_append (d : D) (l1 l2 : List (D × TM)) (t : TM)
    (hk : ∀ p ∈ l1, p.1 ≠ d) :
    aerase d (l1 ++ (d, t) :: l2) = l1 ++ l2 := by
  induction l1 with
  | nil => simp [aerase]
  | cons p ps ih =>
      have hp : p.1 ≠ d := hk p (by simp)
      simp only [List.cons_append, aerase, hp, if_neg]
      simp [ih (fun q hq => hk q (by simp [hq]))]

theorem alookup_append_of_ne (d : D) (l1 l2 : List (D × TM))
    (hk : ∀ p ∈ l1, p.1 ≠ d) :
    alookup (l1 ++ l2) d = alookup l2 d := by
  induction l1 with
  | nil => rfl
  | cons p ps ih =>
      have hp : p.1 ≠ d := hk p (by simp)
      simp only [List.cons_append, alookup, hp, if_neg]
      exact ih (fun q hq => hk q (by simp [hq]))

theorem insertIfAbsent_of_some {l : List (D × TM)} {d : D} {t : TM}
    (h : alookup l d = some t) : insertIfAbsent d l = l := by
  simp [insertIfAbsent, h]

theorem insertIfAbsent_of_none {l : List (D × TM)} {d : D}
    (h : alookup l d = none) : insertIfAbsent d l = (d, ([] : TM)) :: l := by
  simp [insertIfAbsent, h]

@[simp]
theorem customersSum_nil : customersSum ([] : List (D × TM)) = 0 := rfl

@[simp]
theorem customersSum_cons (p : D × TM) (l : List (D × TM)) :
    customersSum (p :: l) = TM.num_customers p.2 + customersSum l := by
  simp [customersSum]

@[simp]
theorem customersSum_append (l1 l2 : List (D × TM)) :
    customersSum (l1 ++ l2) = customersSum l1 + customersSum l2 := by
  simp [customersSum]

@[simp]
theorem tablesSum_nil : tablesSum ([] : List (D × TM)) = 0 := rfl

@[simp]
theorem tablesSum_cons (p : D × TM) (l : List (D × TM)) :
    tablesSum (p :: l) = TM.num_tables p.2 + tablesSum l := by
  simp [tablesSum]

@[simp]
theorem tablesSum_append (l1 l2 : List (D × TM)) :
    tablesSum (l1 ++ l2) = tablesSum l1 + tablesSum l2 := by
  simp [tablesSum]

end AssocLemmas

/-- State of `cpyp::crp<Dish>` (`src/cpyp/crp.h`, lines 243-257).  The C++
NaN sentinel "no prior" on the two optional hyperpriors is embedded as
`Option` (a NaN never arises from real arithmetic, and `has_discount_prior`
/ `has_strength_prior` test exactly the sentinel). -/
structure crp (D : Type) where
  num_tables_ : Nat
  num_customers_ : Nat
  dish_locs_ : List (D × TM)
  discount_ : ℝ
  strength_ : ℝ
  /-- optional beta prior on `discount_`: `(discount_prior_strength_,
  discount_prior_beta_)`, `none` if no prior -/
  discount_prior_ : Option (ℝ × ℝ)
  /-- optional gamma prior on `strength_`: `(strength_prior_shape_,
  strength_prior_rate_)`, `none` if no prior -/
  strength_prior_ : Option (ℝ × ℝ)

namespace crp

variable {D : Type} [DecidableEq D]

/-- Constructor `crp(disc, strength)` (lines 27-37): zero counters, empty
map, no priors.  The `check_hyperparameters` abort is captured by the
validity hypotheses of `Reachable.init` below. -/
def init (disc strength : ℝ) : crp D :=
  ⟨0, 0, [], disc, strength, none, none⟩

/-- Constructor `crp(d_strength, d_beta, c_shape, c_rate, d, c)` (lines
39-49): zero counters, empty map, both priors set. -/
def init_prior (d_strength d_beta c_shape c_rate d c : ℝ) : crp D :=
  ⟨0, 0, [], d, c, some (d_strength, d_beta), some (c_shape, c_rate)⟩

/-- Validity of the Pitman-Yor hyperparameters: exactly the conditions
`check_hyperparameters` (lines 51-60) aborts on when violated. -/
def ValidHyper (c : crp D) : Prop :=
  0 ≤ c.discount_ ∧ c.discount_ < 1 ∧ -c.discount_ < c.strength_

/-- Accessor `discount()` (line 62). -/
def discount (c : crp D) : ℝ := c.discount_

/-- Accessor `strength()` (line 63). -/
def strength (c : crp D) : ℝ := c.strength_

/-- Accessor `has_discount_prior()` (lines 71-73): the NaN sentinel test
becomes an `Option.isSome` test. -/
def has_discount_prior (c : crp D) : Bool := c.discount_prior_.isSome

/-- Accessor `has_strength_prior()` (lines 75-77). -/
def has_strength_prior (c : crp D) : Bool := c.strength_prior_.isSome

/-- Operation `clear()` (lines 79-83). -/
def clear (c : crp D) : crp D :=
  { c with num_tables_ := 0, num_customers_ := 0, dish_locs_ := [] }

/-- Accessor `num_tables()` (lines 85-87). -/
def num_tables (c : crp D) : Nat := c.num_tables_

/-- Accessor `num_tables(dish)` (lines 89-93): 0 for an absent dish, else
the table count of the dish's table manager. -/
def num_tables_of (c : crp D) (dish : D) : Nat :=
  match alookup c.dish_locs_ dish with
  | none => 0
  | some t => TM.num_tables t

/-- Accessor `num_customers()` (lines 95-97). -/
def num_customers (c : crp D) : Nat := c.num_customers_

/-- Accessor `num_customers(dish)` (lines 99-103).  Note the source line
102 reads `return it->num_customers();`, dereferencing the map iterator's
`std::pair` itself, which has no such member; instantiating this member
function is ill-formed C++.  The evident intent — matching the sibling
accessor `num_tables(dish)` on line 92 — is `it->second.num_customers()`,
which is what is embedded here. -/
def num_customers_of (c : crp D) (dish : D) : Nat :=
  match alookup c.dish_locs_ dish with
  | none => 0
  | some t => TM.num_customers t

/-- Operation `increment(dish, p0, eng)` (lines 108-125).  Returns the `int`
return value (`1` = a new table was opened, `0` = shared), the new state
and the rest of the random stream.  `dish_locs_[dish]` default-constructs
an empty table manager for an absent dish; if the dish has customers a
weighted binary choice is drawn, otherwise a new table is opened without
consuming randomness. -/
def increment (c : crp D) (dish : D) (p0 : ℝ) (eng : Engine) :
    Int × crp D × Engine :=
  let locs1 := insertIfAbsent dish c.dish_locs_
  let loc := (alookup locs1 dish).getD []
  let pe : Bool × Engine :=
    if TM.num_customers loc ≠ 0 then
      sample_bernoulli ((c.strength_ + (c.num_tables_ : ℝ) * c.discount_) * p0)
        ((TM.num_customers loc : ℝ) - (TM.num_tables loc : ℝ) * c.discount_) eng
    else (false, eng)
  if pe.1 then
    let se := TM.share_table c.discount_ loc pe.2
    (0, { c with dish_locs_ := aupdate dish se.1 locs1,
                 num_customers_ := c.num_customers_ + 1 }, se.2)
  else
    (1, { c with dish_locs_ := aupdate dish (TM.create_table loc) locs1,
                 num_tables_ := c.num_tables_ + 1,
                 num_customers_ := c.num_customers_ + 1 }, pe.2)

/-- Operation `decrement(dish, eng)` (lines 128-143).  `dish_locs_[dish]`
first inserts an empty table manager if the dish is absent; then
`assert(loc.num_customers())` fires on a zero-customer entry —
`Except.error st` carries the state at the moment of detection.  With one
customer the whole entry is erased (`-1`); otherwise removal is delegated
to the table manager and `num_tables_` is decremented iff it signals a
closed table. -/
def decrement (c : crp D) (dish : D) (eng : Engine) :
    Except (crp D) (Int × crp D × Engine) :=
  let locs1 := insertIfAbsent dish c.dish_locs_
  let loc := (alookup locs1 dish).getD []
  if TM.num_customers loc = 0 then
    Except.error { c with dish_locs_ := locs1 }
  else if TM.num_customers loc = 1 then
    Except.ok (-1, { c with dish_locs_ := aerase dish locs1,
                            num_tables_ := c.num_tables_ - 1,
                            num_customers_ := c.num_customers_ - 1 }, eng)
  else
    let r := TM.remove_customer loc eng
    Except.ok (r.1, { c with dish_locs_ := aupdate dish r.2.1 locs1,
                             num_customers_ := c.num_customers_ - 1,
                             num_tables_ :=
                               if r.1 ≠ 0 then c.num_tables_ - 1
                               else c.num_tables_ }, r.2.2)

/-- Operation `prob(dish, p0)` (lines 145-155), a pure read, with the
template parameter `F` instantiated at the real numbers: the two-parameter
Pitman-Yor predictive weight.  The double division is embedded partially:
when the denominator `num_customers_ + strength_` is exactly zero — which
the hyperparameter checks allow, e.g. the empty restaurant with
`strength = 0`, where the code computes `0.0·p0 / 0.0 = NaN` — the double
result is NaN or ±infinity, which has no real-number counterpart, so the
result is `none`; otherwise `some` of the value the code computes. -/
noncomputable def prob (c : crp D) (dish : D) (p0 : ℝ) : Option ℝ :=
  let r : ℝ := (c.num_tables_ : ℝ) * c.discount_ + c.strength_
  if ((c.num_customers_ : ℝ) + c.strength_) = 0 then none
  else
    match alookup c.dish_locs_ dish with
    | none => some (r * p0 / ((c.num_customers_ : ℝ) + c.strength_))
    | some loc =>
        some ((((TM.num_customers loc : ℝ) -
            c.discount_ * (TM.num_tables loc : ℝ)) + r * p0) /
          ((c.num_customers_ : ℝ) + c.strength_))

/-! Characterization lemmas: the four execution paths of `increment` and
the three execution paths of `decrement`, read off the embedding. -/

theorem increment_absent {c : crp D} {dish : D} (p0 : ℝ) (eng : Engine)
    (h : alookup c.dish_locs_ dish = none) :
    c.increment dish p0 eng =
      (1, { c with dish_locs_ := (dish, [1]) :: c.dish_locs_,
                   num_tables_ := c.num_tables_ + 1,
                   num_customers_ := c.num_customers_ + 1 }, eng) := by
  simp [increment, insertIfAbsent_of_none h, alookup_cons_self,
    TM.num_customers, TM.create_table, aupdate]

theorem increment_present_nocust {c : crp D} {dish : D} {loc : TM}
    (p0 : ℝ) (eng : Engine)
    (h : alookup c.dish_locs_ dish = some loc)
    (h0 : TM.num_customers loc = 0) :
    c.increment dish p0 eng =
      (1, { c with dish_locs_ := aupdate dish (TM.create_table loc) c.dish_locs_,
                   num_tables_ := c.num_tables_ + 1,
                   num_customers_ := c.num_customers_ + 1 }, eng) := by
  simp [increment, insertIfAbsent_of_some h, h, h0]

theorem increment_present_share {c : crp D} {dish : D} {loc : TM}
    (p0 : ℝ) (eng : Engine)
    (h : alookup c.dish_locs_ dish = some loc)
    (hne : TM.num_customers loc ≠ 0)
    (hb : eng.headD 0 % 2 = 1) :
    c.increment dish p0 eng =
      (0, { c with
              dish_locs_ :=
                aupdate dish (TM.share_table c.discount_ loc eng.tail).1
                  c.dish_locs_,
              num_customers_ := c.num_customers_ + 1 },
        (TM.share_table c.discount_ loc eng.tail).2) := by
  simp [increment, insertIfAbsent_of_some h, h, hne, sample_bernoulli, hb]
  simpa using hb

theorem increment_present_new {c : crp D} {dish : D} {loc : TM}
    (p0 : ℝ) (eng : Engine)
    (h : alookup c.dish_locs_ dish = some loc)
    (hne : TM.num_customers loc ≠ 0)
    (hb : ¬ eng.headD 0 % 2 = 1) :
    c.increment dish p0 eng =
      (1, { c with
              dish_locs_ := aupdate dish (TM.create_table loc) c.dish_locs_,
              num_tables_ := c.num_tables_ + 1,
              num_customers_ := c.num_customers_ + 1 }, eng.tail) := by
  simp [increment, insertIfAbsent_of_some h, h, hne, sample_bernoulli, hb]
  have hb' : ¬ (eng.head?.getD 0) % 2 = 1 := by simpa using hb
  omega

theorem decrement_absent {c : crp D} {dish : D} (eng : Engine)
    (h : alookup c.dish_locs_ dish = none) :
    c.decrement dish eng =
      Except.error { c with dish_locs_ := (dish, ([] : TM)) :: c.dish_locs_ } := by
  simp [decrement, insertIfAbsent_of_none h, alookup_cons_self, TM.num_customers]

theorem decrement_present_one {c : crp D} {dish : D} {loc : TM} (eng : Engine)
    (h : alookup c.dish_locs_ dish = some loc)
    (h1 : TM.num_customers loc = 1) :
    c.decrement dish eng =
      Except.ok (-1, { c with dish_locs_ := aerase dish c.dish_locs_,
                              num_tables_ := c.num_tables_ - 1,
                              num_customers_ := c.num_customers_ - 1 }, eng) := by
  simp [decrement, insertIfAbsent_of_some h, h, h1]

theorem decrement_present_many {c : crp D} {dish : D} {loc : TM} (eng : Engine)
    (h : alookup c.dish_locs_ dish = some loc)
    (h2 : 2 ≤ TM.num_customers loc) :
    c.decrement dish eng =
      Except.ok ((TM.remove_customer loc eng).1,
        { c with
            dish_locs_ := aupdate dish (TM.remove_customer loc eng).2.1 c.dish_locs_,
            num_customers_ := c.num_customers_ - 1,
            num_tables_ :=
              if (TM.remove_customer loc eng).1 ≠ 0 then c.num_tables_ - 1
              else c.num_tables_ }, (TM.remove_customer loc eng).2.2) := by
  have hz : ¬ TM.num_customers loc = 0 := by omega
  have ho : ¬ TM.num_customers loc = 1 := by omega
  simp [decrement, insertIfAbsent_of_some h, h, hz, ho]

end crp

section UpdateLemmas

variable {D : Type} [DecidableEq D]

theorem customersSum_aupdate_add {l : List (D × TM)} {d : D} {t : TM}
    (h : alookup l d = some t) (t' : TM) :
    customersSum (aupdate d t' l) + TM.num_customers t =
      customersSum l + TM.num_customers t' := by
  obtain ⟨l1, l2, hl, hk⟩ := alookup_split h
  subst hl
  rw [aupdate_append d t' l1 l2 t hk]
  simp
  omega

theorem tablesSum_aupdate_add {l : List (D × TM)} {d : D} {t : TM}
    (h : alookup l d = some t) (t' : TM) :
    tablesSum (aupdate d t' l) + TM.num_tables t =
      tablesSum l + TM.num_tables t' := by
  obtain ⟨l1, l2, hl, hk⟩ := alookup_split h
  subst hl
  rw [aupdate_append d t' l1 l2 t hk]
  simp
  omega

theorem keys_aupdate {l : List (D × TM)} {d : D} {t : TM}
    (h : alookup l d = some t) (t' : TM) :
    (aupdate d t' l).map Prod.fst = l.map Prod.fst := by
  obtain ⟨l1, l2, hl, hk⟩ := alookup_split h
  subst hl
  rw [aupdate_append d t' l1 l2 t hk]
  simp

theorem mem_aupdate {l : List (D × TM)} {d : D} {t : TM}
    (h : alookup l d = some t) (t' : TM) :
    ∀ p ∈ aupdate d t' l, p = (d, t') ∨ p ∈ l := by
  obtain ⟨l1, l2, hl, hk⟩ := alookup_split h
  subst hl
  rw [aupdate_append d t' l1 l2 t hk]
  intro p hp
  rcases List.mem_append.mp hp with hp | hp
  · exact Or.inr (List.mem_append.mpr (Or.inl hp))
  · rcases List.mem_cons.mp hp with hp | hp
    · exact Or.inl hp
    · exact Or.inr (List.mem_append.mpr (Or.inr (List.mem_cons_of_mem _ hp)))

theorem alookup_aupdate_self {l : List (D × TM)} {d : D} {t : TM}
    (h : alookup l d = some t) (t' : TM) :
    alookup (aupdate d t' l) d = some t' := by
  obtain ⟨l1, l2, hl, hk⟩ := alookup_split h
  subst hl
  rw [aupdate_append d t' l1 l2 t hk, alookup_append_of_ne d l1 _ hk,
    alookup_cons_self]

theorem customersSum_aerase_add {l : List (D × TM)} {d : D} {t : TM}
    (h : alookup l d = some t) :
    customersSum (aerase d l) + TM.num_customers t = customersSum l := by
  obtain ⟨l1, l2, hl, hk⟩ := alookup_split h
  subst hl
  rw [aerase_append d l1 l2 t hk]
  simp
  omega

theorem tablesSum_aerase_add {l : List (D × TM)} {d : D} {t : TM}
    (h : alookup l d = some t) :
    tablesSum (aerase d l) + TM.num_tables t = tablesSum l := by
  obtain ⟨l1, l2, hl, hk⟩ := alookup_split h
  subst hl
  rw [aerase_append d l1 l2 t hk]
  simp
  omega

theorem aerase_sublist (d : D) (l : List (D × TM)) :
    List.Sublist (aerase d l) l := by
  induction l with
  | nil => simp [aerase]
  | cons p ps ih =>
      by_cases hp : p.1 = d
      · simp only [aerase, hp, if_pos]
        exact List.sublist_cons_self _ _
      · simp only [aerase, hp, if_neg, not_false_iff]
        exact List.Sublist.cons₂ _ ih

theorem alookup_aerase_self {l : List (D × TM)} {d : D} {t : TM}
    (h : alookup l d = some t) (hnod : (l.map Prod.fst).Nodup) :
    alookup (aerase d l) d = none := by
  obtain ⟨l1, l2, hl, hk⟩ := alookup_split h
  subst hl
  rw [aerase_append d l1 l2 t hk, alookup_append_of_ne d l1 _ hk]
  apply alookup_eq_none_of_not_mem_keys
  simp only [List.map_append, List.map_cons] at hnod
  have := (List.Nodup.of_append_right hnod)
  exact (List.nodup_cons.mp this).1

end UpdateLemmas

namespace crp

variable {D : Type} [DecidableEq D]

/-- Data-model invariants of the restaurant (spec §3, items 1-5, together
with hyperparameter validity): the global counters agree with the per-dish
sums, every present dish has at least one customer, every table seats at
least one customer, and the map holds each dish at most once (as
`std::unordered_map` does). -/
structure Inv (c : crp D) : Prop where
  nodup : (c.dish_locs_.map Prod.fst).Nodup
  cust : c.num_customers_ = customersSum c.dish_locs_
  tabs : c.num_tables_ = tablesSum c.dish_locs_
  sizes : ∀ p ∈ c.dish_locs_, ∀ sz ∈ p.2, 1 ≤ sz
  nonempty : ∀ p ∈ c.dish_locs_, p.2 ≠ ([] : TM)
  valid : ValidHyper c

theorem Inv.loc_sum_pos {c : crp D} (hI : Inv c) {dish : D} {loc : TM}
    (h : alookup c.dish_locs_ dish = some loc) : 1 ≤ TM.num_customers loc := by
  have hmem := alookup_mem h
  have hne : loc ≠ [] := hI.nonempty _ hmem
  have hsz : ∀ sz ∈ loc, 1 ≤ sz := hI.sizes _ hmem
  have hlen : 1 ≤ loc.length := List.length_pos.mpr hne
  have := length_le_sum_of_one_le loc hsz
  unfold TM.num_customers
  omega

theorem Inv.loc_len_pos {c : crp D} (hI : Inv c) {dish : D} {loc : TM}
    (h : alookup c.dish_locs_ dish = some loc) : 1 ≤ TM.num_tables loc := by
  have hmem := alookup_mem h
  have hne : loc ≠ [] := hI.nonempty _ hmem
  exact List.length_pos.mpr hne

theorem Inv.cust_le {c : crp D} (hI : Inv c) {dish : D} {loc : TM}
    (h : alookup c.dish_locs_ dish = some loc) :
    TM.num_customers loc ≤ c.num_customers_ := by
  obtain ⟨l1, l2, hl, _⟩ := alookup_split h
  rw [hI.cust, hl]
  simp
  omega

theorem Inv.tabs_le {c : crp D} (hI : Inv c) {dish : D} {loc : TM}
    (h : alookup c.dish_locs_ dish = some loc) :
    TM.num_tables loc ≤ c.num_tables_ := by
  obtain ⟨l1, l2, hl, _⟩ := alookup_split h
  rw [hI.tabs, hl]
  simp
  omega

/-- An invariant-respecting restaurant with no customers has an empty map
and no tables. -/
theorem Inv.empty_of_no_customers {c : crp D} (hI : Inv c)
    (h0 : c.num_customers_ = 0) : c.dish_locs_ = [] ∧ c.num_tables_ = 0 := by
  cases hl : c.dish_locs_ with
  | nil => exact ⟨rfl, by rw [hI.tabs, hl]; rfl⟩
  | cons p ps =>
      exfalso
      have hp : p ∈ c.dish_locs_ := by rw [hl]; simp
      have hne : p.2 ≠ [] := hI.nonempty _ hp
      have hsz : ∀ sz ∈ p.2, 1 ≤ sz := hI.sizes _ hp
      have hlen : 1 ≤ p.2.length := List.length_pos.mpr hne
      have hsum := length_le_sum_of_one_le p.2 hsz
      have : c.num_customers_ = customersSum c.dish_locs_ := hI.cust
      rw [hl] at this
      simp [TM.num_customers] at this
      omega

/-- An invariant-respecting restaurant with a customer has a table. -/
theorem Inv.tables_pos {c : crp D} (hI : Inv c)
    (h1 : 1 ≤ c.num_customers_) : 1 ≤ c.num_tables_ := by
  by_contra h
  have h0 : c.num_tables_ = 0 := by omega
  cases hl : c.dish_locs_ with
  | nil =>
      have := hI.cust
      rw [hl] at this
      simp at this
      omega
  | cons p ps =>
      have hp : p ∈ c.dish_locs_ := by rw [hl]; simp
      have hne : p.2 ≠ [] := hI.nonempty _ hp
      have hlen : 1 ≤ p.2.length := List.length_pos.mpr hne
      have := hI.tabs
      rw [hl] at this
      simp [TM.num_tables] at this
      omega

/-- Tables never outnumber customers, dish by dish: each table seats at
least one customer. -/
theorem tablesSum_le_customersSum (l : List (D × TM))
    (h : ∀ p ∈ l, ∀ sz ∈ p.2, 1 ≤ sz) : tablesSum l ≤ customersSum l := by
  induction l with
  | nil => simp
  | cons p ps ih =>
      have h1 := length_le_sum_of_one_le p.2 (h p (by simp))
      have h2 := ih (fun q hq => h q (by simp [hq]))
      simp only [tablesSum_cons, customersSum_cons, TM.num_tables,
        TM.num_customers]
      omega

/-- The global bound (spec §8 "Bound"): tables never outnumber customers. -/
theorem Inv.tables_le_customers {c : crp D} (hI : Inv c) :
    c.num_tables_ ≤ c.num_customers_ := by
  rw [hI.cust, hI.tabs]
  exact tablesSum_le_customersSum _ hI.sizes

theorem inv_init {d s : ℝ} (h0 : 0 ≤ d) (h1 : d < 1) (h2 : -d < s) :
    Inv (init d s : crp D) := by
  refine ⟨by simp [init], rfl, rfl, by simp [init], by simp [init], h0, h1, h2⟩

theorem inv_init_prior {a b sh rt d s : ℝ}
    (h0 : 0 ≤ d) (h1 : d < 1) (h2 : -d < s) :
    Inv (init_prior a b sh rt d s : crp D) := by
  refine ⟨by simp [init_prior], rfl, rfl, by simp [init_prior],
    by simp [init_prior], h0, h1, h2⟩

theorem inv_clear {c : crp D} (hI : Inv c) : Inv c.clear := by
  refine ⟨by simp [clear], rfl, rfl, by simp [clear], by simp [clear],
    hI.valid⟩

/-- Invariant preservation by `increment`, for every dish, base probability
and random stream. -/
theorem inv_increment {c : crp D} (hI : Inv c) (dish : D) (p0 : ℝ)
    (eng : Engine) : Inv (c.increment dish p0 eng).2.1 := by
  cases h : alookup c.dish_locs_ dish with
  | none =>
      rw [increment_absent p0 eng h]
      have hkey := not_mem_keys_of_alookup_none h
      refine ⟨?_, ?_, ?_, ?_, ?_, hI.valid⟩
      · simp only [List.map_cons, List.nodup_cons]
        exact ⟨hkey, hI.nodup⟩
      · have := hI.cust
        simp [TM.num_customers]
        omega
      · have := hI.tabs
        simp [TM.num_tables]
        omega
      · intro p hp
        rcases List.mem_cons.mp hp with hp | hp
        · subst hp
          intro sz hsz
          simp at hsz
          omega
        · exact hI.sizes p hp
      · intro p hp
        rcases List.mem_cons.mp hp with hp | hp
        · subst hp; simp
        · exact hI.nonempty p hp
  | some loc =>
      have hsum := hI.loc_sum_pos h
      have hne : TM.num_customers loc ≠ 0 := by omega
      have hlocne : loc ≠ [] := hI.nonempty _ (alookup_mem h)
      have hlen : 0 < loc.length := List.length_pos.mpr hlocne
      by_cases hb : eng.headD 0 % 2 = 1
      · -- share an existing table
        rw [increment_present_share p0 eng h hne hb]
        set i := eng.tail.headD 0 % loc.length with hi
        have hilt : i < loc.length := Nat.mod_lt _ hlen
        have hmemi : loc.getD i 0 ∈ loc := getD_mem_of_lt loc i hilt
        have hloc' : (TM.share_table c.discount_ loc eng.tail).1 =
            loc.set i (loc.getD i 0 + 1) := rfl
        have hsum' : TM.num_customers (loc.set i (loc.getD i 0 + 1)) =
            TM.num_customers loc + 1 := by
          have := sum_set_add loc i (loc.getD i 0 + 1) hilt
          unfold TM.num_customers
          omega
        have hlen' : TM.num_tables (loc.set i (loc.getD i 0 + 1)) =
            TM.num_tables loc := by
          unfold TM.num_tables
          simp
        refine ⟨?_, ?_, ?_, ?_, ?_, hI.valid⟩
        · simpa [hloc', keys_aupdate h] using hI.nodup
        · have := customersSum_aupdate_add h (loc.set i (loc.getD i 0 + 1))
          have hc := hI.cust
          simp only [hloc']
          omega
        · have := tablesSum_aupdate_add h (loc.set i (loc.getD i 0 + 1))
          have ht := hI.tabs
          simp only [hloc']
          omega
        · intro p hp
          simp only [hloc'] at hp
          rcases mem_aupdate h _ p hp with hp | hp
          · subst hp
            intro sz hsz
            rcases List.mem_or_eq_of_mem_set hsz with hsz | hsz
            · exact hI.sizes _ (alookup_mem h) sz hsz
            · have := hI.sizes _ (alookup_mem h) _ hmemi
              omega
          · exact hI.sizes p hp
        · intro p hp
          simp only [hloc'] at hp
          rcases mem_aupdate h _ p hp with hp | hp
          · subst hp
            intro hcon
            have hcon' : loc.set i (loc.getD i 0 + 1) = ([] : TM) := hcon
            have : TM.num_customers (loc.set i (loc.getD i 0 + 1)) = 0 := by
              rw [hcon']; rfl
            omega
          · exact hI.nonempty p hp
      · -- open a new table
        rw [increment_present_new p0 eng h hne hb]
        dsimp only
        refine ⟨?_, ?_, ?_, ?_, ?_, hI.valid⟩
        · simpa [keys_aupdate h] using hI.nodup
        · dsimp only
          have h1 := customersSum_aupdate_add h (TM.create_table loc)
          have hc := hI.cust
          have hcc : TM.num_customers (TM.create_table loc) =
              TM.num_customers loc + 1 := by
            simp [TM.num_customers, TM.create_table]
            omega
          omega
        · dsimp only
          have h1 := tablesSum_aupdate_add h (TM.create_table loc)
          have ht := hI.tabs
          have hct : TM.num_tables (TM.create_table loc) =
              TM.num_tables loc + 1 := by
            simp [TM.num_tables, TM.create_table]
          omega
        · intro p hp
          rcases mem_aupdate h _ p hp with hp | hp
          · subst hp
            intro sz hsz
            simp only [TM.create_table, List.mem_cons] at hsz
            rcases hsz with hsz | hsz
            · omega
            · exact hI.sizes _ (alookup_mem h) sz hsz
          · exact hI.sizes p hp
        · intro p hp
          rcases mem_aupdate h _ p hp with hp | hp
          · subst hp
            simp [TM.create_table]
          · exact hI.nonempty p hp

/-- Invariant preservation by `decrement` under its precondition (the dish
has at least one seated customer): the call succeeds and the result state
satisfies the invariants. -/
theorem inv_decrement {c : crp D} (hI : Inv c) (dish : D) (eng : Engine)
    (hpre : 1 ≤ c.num_customers_of dish) :
    ∀ out, c.decrement dish eng = Except.ok out → Inv out.2.1 := by
  intro out hout
  cases h : alookup c.dish_locs_ dish with
  | none =>
      exfalso
      unfold num_customers_of at hpre
      rw [h] at hpre
      simp at hpre
  | some loc =>
      have hloc1 : 1 ≤ TM.num_customers loc := by
        unfold num_customers_of at hpre
        rw [h] at hpre
        exact hpre
      have hN1 : 1 ≤ c.num_customers_ := le_trans hloc1 (hI.cust_le h)
      have hT1 : 1 ≤ c.num_tables_ := hI.tables_pos hN1
      by_cases h1 : TM.num_customers loc = 1
      · rw [decrement_present_one eng h h1] at hout
        cases hout
        refine ⟨?_, ?_, ?_, ?_, ?_, hI.valid⟩
        · exact List.Nodup.sublist
            (List.Sublist.map Prod.fst (aerase_sublist dish c.dish_locs_))
            hI.nodup
        · have := customersSum_aerase_add h
          have hc := hI.cust
          simp only
          omega
        · have := tablesSum_aerase_add h
          have ht := hI.tabs
          have hlocne : loc ≠ [] := hI.nonempty _ (alookup_mem h)
          have hlen1 : 1 ≤ loc.length := List.length_pos.mpr hlocne
          have hsz := hI.sizes _ (alookup_mem h)
          have hles := length_le_sum_of_one_le loc hsz
          have hlen : TM.num_tables loc = 1 := by
            unfold TM.num_tables
            unfold TM.num_customers at h1
            omega
          simp only
          omega
        · intro p hp
          exact hI.sizes p ((aerase_sublist dish c.dish_locs_).subset hp)
        · intro p hp
          exact hI.nonempty p ((aerase_sublist dish c.dish_locs_).subset hp)
      · have h2 : 2 ≤ TM.num_customers loc := by omega
        rw [decrement_present_many eng h h2] at hout
        cases hout
        have hlocne : loc ≠ [] := hI.nonempty _ (alookup_mem h)
        have hlen : 0 < loc.length := List.length_pos.mpr hlocne
        set i := eng.headD 0 % loc.length with hi
        have hilt : i < loc.length := Nat.mod_lt _ hlen
        have hmemi : loc.getD i 0 ∈ loc := getD_mem_of_lt loc i hilt
        have hszi : 1 ≤ loc.getD i 0 := hI.sizes _ (alookup_mem h) _ hmemi
        by_cases hsz1 : loc.getD i 0 ≤ 1
        · -- the selected table had one customer: it closes
          have hrc : TM.remove_customer loc eng =
              (-1, loc.eraseIdx i, eng.tail) := by
            simp only [TM.remove_customer]
            rw [← hi, if_pos hsz1]
          rw [hrc]
          dsimp only
          have hif : (if ((-1 : Int) ≠ 0) then c.num_tables_ - 1
              else c.num_tables_) = c.num_tables_ - 1 := by simp
          rw [hif]
          have herase_sum := sum_eraseIdx_add loc i hilt
          have herase_len := length_eraseIdx_add loc i hilt
          have hTl1 : 1 ≤ TM.num_tables loc := List.length_pos.mpr hlocne
          refine ⟨?_, ?_, ?_, ?_, ?_, hI.valid⟩
          · simpa [keys_aupdate h] using hI.nodup
          · have := customersSum_aupdate_add h (loc.eraseIdx i)
            have hc := hI.cust
            have he : TM.num_customers (loc.eraseIdx i) + loc.getD i 0 =
                TM.num_customers loc := herase_sum
            simp only
            omega
          · have := tablesSum_aupdate_add h (loc.eraseIdx i)
            have ht := hI.tabs
            have he : TM.num_tables (loc.eraseIdx i) + 1 =
                TM.num_tables loc := herase_len
            have hTle := hI.tabs_le h
            simp only
            omega
          · intro p hp
            rcases mem_aupdate h _ p hp with hp | hp
            · subst hp
              intro sz hsz
              exact hI.sizes _ (alookup_mem h) sz
                ((List.eraseIdx_sublist loc i).subset hsz)
            · exact hI.sizes p hp
          · intro p hp
            rcases mem_aupdate h _ p hp with hp | hp
            · subst hp
              intro hcon
              have hcon' : loc.eraseIdx i = ([] : TM) := hcon
              have hz : TM.num_customers (loc.eraseIdx i) = 0 := by
                rw [hcon']; rfl
              unfold TM.num_customers at hz h2
              omega
            · exact hI.nonempty p hp
        · -- the selected table keeps customers
          have hrc : TM.remove_customer loc eng =
              (0, loc.set i (loc.getD i 0 - 1), eng.tail) := by
            simp only [TM.remove_customer]
            rw [← hi, if_neg hsz1]
          rw [hrc]
          dsimp only
          have hif : (if ((0 : Int) ≠ 0) then c.num_tables_ - 1
              else c.num_tables_) = c.num_tables_ := by simp
          rw [hif]
          have hset_sum := sum_set_add loc i (loc.getD i 0 - 1) hilt
          refine ⟨?_, ?_, ?_, ?_, ?_, hI.valid⟩
          · simpa [keys_aupdate h] using hI.nodup
          · have := customersSum_aupdate_add h (loc.set i (loc.getD i 0 - 1))
            have hc := hI.cust
            have hs : TM.num_customers (loc.set i (loc.getD i 0 - 1)) + 1 =
                TM.num_customers loc := by
              unfold TM.num_customers
              omega
            simp only
            omega
          · have := tablesSum_aupdate_add h (loc.set i (loc.getD i 0 - 1))
            have ht := hI.tabs
            have hs : TM.num_tables (loc.set i (loc.getD i 0 - 1)) =
                TM.num_tables loc := by
              unfold TM.num_tables
              simp
            simp only
            omega
          · intro p hp
            rcases mem_aupdate h _ p hp with hp | hp
            · subst hp
              intro sz hsz
              rcases List.mem_or_eq_of_mem_set hsz with hsz | hsz
              · exact hI.sizes _ (alookup_mem h) sz hsz
              · omega
            · exact hI.sizes p hp
          · intro p hp
            rcases mem_aupdate h _ p hp with hp | hp
            · subst hp
              intro hcon
              have hcon' : loc.set i (loc.getD i 0 - 1) = ([] : TM) := hcon
              have hlenset : (loc.set i (loc.getD i 0 - 1)).length =
                  loc.length := by simp
              rw [hcon'] at hlenset
              simp at hlenset
              omega
            · exact hI.nonempty p hp

/-- States reachable from a freshly constructed restaurant by `increment`,
`decrement` (under its precondition) and `clear`.  The `init` constructors
carry exactly the conditions under which `check_hyperparameters` does not
abort. -/
inductive Reachable : crp D → Prop where
  | init : ∀ d s : ℝ, 0 ≤ d → d < 1 → -d < s → Reachable (crp.init d s)
  | init_prior : ∀ a b sh rt d s : ℝ, 0 ≤ d → d < 1 → -d < s →
      Reachable (crp.init_prior a b sh rt d s)
  | inc : ∀ (c : crp D) (dish : D) (p0 : ℝ) (eng : Engine), Reachable c →
      Reachable (c.increment dish p0 eng).2.1
  | dec : ∀ (c : crp D) (dish : D) (eng : Engine)
      (out : Int × crp D × Engine), Reachable c →
      1 ≤ c.num_customers_of dish → c.decrement dish eng = Except.ok out →
      Reachable out.2.1
  | clear : ∀ c : crp D, Reachable c → Reachable c.clear

/-- Every reachable state satisfies the data-model invariants. -/
theorem reachable_inv {c : crp D} (h : Reachable c) : Inv c := by
  induction h with
  | init d s h0 h1 h2 => exact inv_init h0 h1 h2
  | init_prior a b sh rt d s h0 h1 h2 => exact inv_init_prior h0 h1 h2
  | inc c dish p0 eng _ ih => exact inv_increment ih dish p0 eng
  | dec c dish eng out _ hpre hout ih =>
      exact inv_decrement ih dish eng hpre out hout
  | clear c _ ih => exact inv_clear ih

end crp

/-! Real-analytic layer: the density helpers of `m.h` and the likelihood of
`crp.h` lines 157-192, over the real numbers.  The C functions `log` and
`lgamma` are embedded as `Real.log` and `x ↦ Real.log |Real.Gamma x|`; the
conditions under which the C computation is finite (every `log` argument
positive, every `lgamma` argument away from the poles of `Γ`, where the C
`lgamma` returns `+inf`) are collected in the predicate `LLFiniteAt`. -/

/-- The C library function `lgamma`: the logarithm of the absolute value of
the gamma function.  Its value is a finite double exactly when
`Real.Gamma x ≠ 0`, i.e. when `x` is not a pole of `Γ`. -/
noncomputable def lgamma (x : ℝ) : ℝ := Real.log |Real.Gamma x|

/-- Modelled from the spec: `Md::log_beta_density` of `m.h` (not in
`src/`); the standard closed form of the logarithm of the Beta density. -/
noncomputable def Md.log_beta_density (x alpha beta : ℝ) : ℝ :=
  (alpha - 1) * Real.log x + (beta - 1) * Real.log (1 - x) +
    lgamma (alpha + beta) - lgamma alpha - lgamma beta

/-- Modelled from the spec: `Md::log_gamma_density` of `m.h` (not in
`src/`); the standard closed form of the logarithm of the Gamma density
with shape/rate parameters. -/
noncomputable def Md.log_gamma_density (x shape rate : ℝ) : ℝ :=
  shape * Real.log rate + (shape - 1) * Real.log x - rate * x - lgamma shape

namespace crp

variable {D : Type} [DecidableEq D]

/-- The hyperprior contribution computed by `log_likelihood` lines 164-168:
the Beta log-density on the discount if a discount prior is present, plus
the Gamma log-density on `strength + discount` if a strength prior is
present; an absent prior contributes zero.  The source asserts this value
to be `≤ 0` (line 169). -/
noncomputable def hyperPriorLL (c : crp D) (d s : ℝ) : ℝ :=
  (match c.discount_prior_ with
   | some ab => Md.log_beta_density d ab.1 ab.2
   | none => 0) +
  (match c.strength_prior_ with
   | some sr => Md.log_gamma_density (s + d) sr.1 sr.2
   | none => 0)

/-- Per-table contribution of the two-parameter case (lines 178-180): the
histogram iteration `(lgamma(bin.first - discount) - lgamma(1-discount)) *
bin.second` aggregated over bins equals the sum over individual tables. -/
noncomputable def binTerm (d : ℝ) (l : List (D × TM)) : ℝ :=
  (l.map (fun p =>
    ((p.2.map (fun sz => lgamma ((sz : ℝ) - d) - lgamma (1 - d))).sum))).sum

/-- Per-dish contribution of the Dirichlet-process case (lines 184-185). -/
noncomputable def dpTerm (l : List (D × TM)) : ℝ :=
  (l.map (fun p => lgamma ((TM.num_tables p.2 : ℝ)))).sum

/-- Operation `log_likelihood(discount, strength)` (lines 163-192),
embedded partially: `none` when one of the two value-level asserts fires —
the `assert(lp <= 0.0)` on the hyperprior contribution (line 169), or the
`assert(!"discount less than 0 detected!")` branch (line 187) — since the
program aborts there instead of returning.  The remaining asserts (lines
177, 183, 190) test double finiteness, which has no counterpart on exact
reals; the predicate `LLFiniteAt` below characterizes the states on which
they pass. -/
noncomputable def log_likelihood (c : crp D) (discount strength : ℝ) :
    Option ℝ :=
  let lp := c.hyperPriorLL discount strength
  if 0 < lp then none
  else if c.num_customers_ ≠ 0 then
    if 0 < discount then
      some (lp +
        (if strength ≠ 0 then lgamma strength - lgamma (strength / discount)
         else 0)
        - lgamma (strength + (c.num_customers_ : ℝ))
        + (c.num_tables_ : ℝ) * Real.log discount
        + lgamma (strength / discount + (c.num_tables_ : ℝ))
        + binTerm discount c.dish_locs_)
    else if discount = 0 then
      some (lp + lgamma strength + (c.num_tables_ : ℝ) * Real.log strength
        - lgamma (strength + (c.num_tables_ : ℝ))
        + dpTerm c.dish_locs_)
    else none
  else some lp

/-- Operation `log_likelihood()` (lines 157-159): the two-argument version
at the stored hyperparameters. -/
noncomputable def log_likelihood0 (c : crp D) : Option ℝ :=
  c.log_likelihood c.discount_ c.strength_

/-- Positivity of the hyperprior shape parameters, as required by the data
model (spec §3: Beta prior with two positive shape parameters, Gamma prior
with positive shape and rate). -/
def PriorsOk (c : crp D) : Prop :=
  (∀ ab ∈ c.discount_prior_, 0 < ab.1 ∧ 0 < ab.2) ∧
  (∀ sr ∈ c.strength_prior_, 0 < sr.1 ∧ 0 < sr.2)

/-- Finiteness of the C computation of `log_likelihood c d s`: every `log`
argument evaluated on the taken branch is positive and every `lgamma`
argument avoids the poles of `Γ` (C `lgamma x` is a finite double iff
`Real.Gamma x ≠ 0`).  The branch structure mirrors lines 163-192: the
hyperprior densities (with their internal `log x`, `log (1-x)`, `log rate`,
`log x` arguments), then, only when customers are seated, the
two-parameter or the Dirichlet-process formula; a negative discount is the
fatal `assert(!"discount less than 0 detected!")`. -/
def LLFiniteAt (c : crp D) (d s : ℝ) : Prop :=
  (∀ ab ∈ c.discount_prior_,
    0 < d ∧ d < 1 ∧ Real.Gamma ab.1 ≠ 0 ∧ Real.Gamma ab.2 ≠ 0 ∧
      Real.Gamma (ab.1 + ab.2) ≠ 0) ∧
  (∀ sr ∈ c.strength_prior_,
    0 < sr.2 ∧ 0 < s + d ∧ Real.Gamma sr.1 ≠ 0) ∧
  (c.num_customers_ ≠ 0 →
    if 0 < d then
      (s ≠ 0 → Real.Gamma s ≠ 0 ∧ Real.Gamma (s / d) ≠ 0) ∧
      Real.Gamma (s + (c.num_customers_ : ℝ)) ≠ 0 ∧
      Real.Gamma (s / d + (c.num_tables_ : ℝ)) ≠ 0 ∧
      Real.Gamma (1 - d) ≠ 0 ∧
      (∀ p ∈ c.dish_locs_, ∀ sz ∈ p.2, Real.Gamma ((sz : ℝ) - d) ≠ 0)
    else if d = 0 then
      0 < s ∧ Real.Gamma s ≠ 0 ∧ Real.Gamma (s + (c.num_tables_ : ℝ)) ≠ 0 ∧
      (∀ p ∈ c.dish_locs_, Real.Gamma ((TM.num_tables p.2 : ℝ)) ≠ 0)
    else False)

end crp

/-- DBL_MIN, the least positive normalized double, used by
`resample_hyperparameters` to keep slice-sampling supports away from their
open boundaries. -/
noncomputable def dblMin : ℝ := ((2 : ℝ) ^ (1022 : ℕ))⁻¹

/-- Modelled from the spec: the black-box univariate slice sampler of
`slice_sampler.h` (not in `src/`): given a log-density, an initial value,
the random stream, support bounds, a step width, a burn-in count and an
iteration cap, it returns a new value and the advanced stream.  The
log-density argument is partial because the embedded `log_likelihood` can
hit an assert.  No claim settled here depends on the returned value, so it
is modelled as consuming one draw and keeping the initial point. -/
noncomputable def slice_sampler1d (f : ℝ → Option ℝ) (x0 : ℝ) (eng : Engine)
    (lo hi : EReal) (w : ℝ) (burn maxit : Nat) : ℝ × Engine :=
  (x0, eng.tail)

namespace crp

variable {D : Type} [DecidableEq D]

/-- Operation `resample_hyperparameters(eng, nloop, niterations)` (lines
194-215).  The leading `assert(has_discount_prior() ||
has_strength_prior())` is embedded as the `none` result; with no seated
customers the operation returns immediately, leaving state and stream
untouched; otherwise it runs `nloop` rounds of strength-then-discount
slice updates and one final strength update. -/
noncomputable def resample_hyperparameters (c : crp D) (eng : Engine)
    (nloop niterations : Nat) : Option (crp D × Engine) :=
  if c.has_discount_prior = false ∧ c.has_strength_prior = false then none
  else if c.num_customers = 0 then some (c, eng)
  else
    let step : crp D × Engine → crp D × Engine := fun ce =>
      let c0 := ce.1
      let se : ℝ × Engine :=
        if c0.has_strength_prior then
          slice_sampler1d (fun s => c0.log_likelihood c0.discount_ s)
            c0.strength_ ce.2 ((-c0.discount_ + dblMin : ℝ) : EReal) ⊤ 0
            niterations (100 * niterations)
        else (c0.strength_, ce.2)
      let c1 : crp D := { c0 with strength_ := se.1 }
      let de : ℝ × Engine :=
        if c1.has_discount_prior then
          let min_discount : ℝ :=
            if c1.strength_ < 0 then dblMin - c1.strength_ else dblMin
          slice_sampler1d (fun dd => c1.log_likelihood dd c1.strength_)
            c1.discount_ se.2 ((min_discount : ℝ) : EReal) ((1 : ℝ) : EReal) 0
            niterations (100 * niterations)
        else (c1.discount_, se.2)
      ({ c1 with discount_ := de.1 }, de.2)
    let mid := step^[nloop] (c, eng)
    let fe : ℝ × Engine :=
      slice_sampler1d (fun s => mid.1.log_likelihood mid.1.discount_ s)
        mid.1.strength_ mid.2 ((-mid.1.discount_ : ℝ) : EReal) ⊤ 0
        niterations (100 * niterations)
    some ({ mid.1 with strength_ := fe.1 }, fe.2)

theorem not_pair_mem_of_alookup_none {l : List (D × TM)} {d : D}
    (h : alookup l d = none) : ∀ t : TM, (d, t) ∉ l := by
  intro t ht
  exact not_mem_keys_of_alookup_none h
    (List.mem_map_of_mem Prod.fst ht)

end crp

/-! Claim theorems. -/

/-- C1: starting from a freshly constructed restaurant, after any sequence
of `increment`, `decrement` (each respecting its precondition of at least
one seated customer for the dish) and `clear` calls, `numCustomers` equals
the sum over `dishState` of the per-dish customer counts, `numTables`
equals the sum over `dishState` of the per-dish table counts, and
`numTables ≤ numCustomers`. -/
theorem claim_C1 {D : Type} [DecidableEq D] (c : crp D)
    (h : crp.Reachable c) :
    c.num_customers_ = customersSum c.dish_locs_ ∧
    c.num_tables_ = tablesSum c.dish_locs_ ∧
    c.num_tables_ ≤ c.num_customers_ := by
  have hI := crp.reachable_inv h
  exact ⟨hI.cust, hI.tabs, hI.tables_le_customers⟩

/-- Witness for C1 at a concrete reachable state: one increment after
construction. -/
theorem claim_C1_witness :
    ((crp.init 0 1 : crp Nat).increment 0 0 []).2.1.num_customers_ =
      customersSum ((crp.init 0 1 : crp Nat).increment 0 0 []).2.1.dish_locs_ ∧
    ((crp.init 0 1 : crp Nat).increment 0 0 []).2.1.num_tables_ =
      tablesSum ((crp.init 0 1 : crp Nat).increment 0 0 []).2.1.dish_locs_ ∧
    ((crp.init 0 1 : crp Nat).increment 0 0 []).2.1.num_tables_ ≤
      ((crp.init 0 1 : crp Nat).increment 0 0 []).2.1.num_customers_ :=
  claim_C1 _ (crp.Reachable.inc _ 0 0 []
    (crp.Reachable.init 0 1 le_rfl zero_lt_one (by norm_num)))

/-- C2: for every dish and every `p0 ≥ 0`, if the dish has no seated
customers then `increment` opens a new table (returns `1`) without drawing
any random choice (the stream is returned untouched); in every case
`increment` adds exactly one to `numCustomers` and to the dish's customer
count, adds the returned value to `numTables`, and returns `1` iff a new
table was opened for the dish (else `0`). -/
theorem claim_C2 {D : Type} [DecidableEq D] (c : crp D) (dish : D) (p0 : ℝ)
    (eng : Engine) (hp0 : 0 ≤ p0) :
    (c.num_customers_of dish = 0 →
      (c.increment dish p0 eng).1 = 1 ∧ (c.increment dish p0 eng).2.2 = eng) ∧
    (c.increment dish p0 eng).2.1.num_customers_ = c.num_customers_ + 1 ∧
    (c.increment dish p0 eng).2.1.num_customers_of dish =
      c.num_customers_of dish + 1 ∧
    ((c.increment dish p0 eng).1 = 0 ∨ (c.increment dish p0 eng).1 = 1) ∧
    (c.increment dish p0 eng).2.1.num_tables_ =
      c.num_tables_ + (c.increment dish p0 eng).1.toNat ∧
    ((c.increment dish p0 eng).1 = 1 ↔
      (c.increment dish p0 eng).2.1.num_tables_of dish =
        c.num_tables_of dish + 1) := by
  cases h : alookup c.dish_locs_ dish with
  | none =>
      rw [crp.increment_absent p0 eng h]
      dsimp only
      refine ⟨fun _ => ⟨rfl, rfl⟩, rfl, ?_, Or.inr rfl, by simp, ?_⟩
      · simp [crp.num_customers_of, alookup_cons_self, h, TM.num_customers]
      · simp [crp.num_tables_of, alookup_cons_self, h, TM.num_tables]
  | some loc =>
      by_cases h0 : TM.num_customers loc = 0
      · rw [crp.increment_present_nocust p0 eng h h0]
        dsimp only
        have hupd : alookup (aupdate dish ((1 : Nat) :: loc) c.dish_locs_)
            dish = some ((1 : Nat) :: loc) :=
          alookup_aupdate_self h ((1 : Nat) :: loc)
        refine ⟨fun _ => ⟨rfl, rfl⟩, rfl, ?_, Or.inr rfl, by simp, ?_⟩
        · simp [crp.num_customers_of, TM.create_table, hupd, h,
            TM.num_customers]
          omega
        · simp [crp.num_tables_of, TM.create_table, hupd, h, TM.num_tables]
      · have hof : c.num_customers_of dish = TM.num_customers loc := by
          simp [crp.num_customers_of, h]
        by_cases hb : eng.headD 0 % 2 = 1
        · rw [crp.increment_present_share p0 eng h h0 hb]
          dsimp only
          have hlocne : loc ≠ [] := fun hn => h0 (by rw [hn]; rfl)
          have hlen : 0 < loc.length := List.length_pos.mpr hlocne
          have hilt : eng.tail.headD 0 % loc.length < loc.length :=
            Nat.mod_lt _ hlen
          have hshare : (TM.share_table c.discount_ loc eng.tail).1 =
              loc.set (eng.tail.headD 0 % loc.length)
                (loc.getD (eng.tail.headD 0 % loc.length) 0 + 1) := rfl
          have hsum' : TM.num_customers
              (TM.share_table c.discount_ loc eng.tail).1 =
              TM.num_customers loc + 1 := by
            have := sum_set_add loc (eng.tail.headD 0 % loc.length)
              (loc.getD (eng.tail.headD 0 % loc.length) 0 + 1) hilt
            rw [hshare]
            unfold TM.num_customers
            omega
          have hlen' : TM.num_tables
              (TM.share_table c.discount_ loc eng.tail).1 =
              TM.num_tables loc := by
            rw [hshare]
            unfold TM.num_tables
            simp
          have hupd := alookup_aupdate_self h
            (TM.share_table c.discount_ loc eng.tail).1
          refine ⟨fun hc => absurd (hof ▸ hc) h0, rfl, ?_, Or.inl rfl,
            by simp, ?_⟩
          · simp only [crp.num_customers_of, hupd, h, hof, hsum']
          · simp only [crp.num_tables_of, hupd, h, hlen']
            constructor
            · intro hc
              exact absurd hc (by decide)
            · intro hc
              exfalso
              omega
        · rw [crp.increment_present_new p0 eng h h0 hb]
          dsimp only
          have hupd : alookup
              (aupdate dish ((1 : Nat) :: loc) c.dish_locs_) dish =
              some ((1 : Nat) :: loc) :=
            alookup_aupdate_self h ((1 : Nat) :: loc)
          refine ⟨fun hc => absurd (hof ▸ hc) h0, rfl, ?_, Or.inr rfl,
            by simp, ?_⟩
          · simp [crp.num_customers_of, TM.create_table, hupd, h,
              TM.num_customers]
            omega
          · simp [crp.num_tables_of, TM.create_table, hupd, h, TM.num_tables]

/-- Witness for C2 at a concrete input: a fresh restaurant, an unseen dish,
`p0 = 0`, an empty stream. -/
theorem claim_C2_witness :
    (0 : ℝ) ≤ 0 ∧
    (((crp.init 0 1 : crp Nat).num_customers_of 0 = 0 →
      ((crp.init 0 1 : crp Nat).increment 0 0 []).1 = 1 ∧
      ((crp.init 0 1 : crp Nat).increment 0 0 []).2.2 = []) ∧
    ((crp.init 0 1 : crp Nat).increment 0 0 []).2.1.num_customers_ =
      (crp.init 0 1 : crp Nat).num_customers_ + 1 ∧
    ((crp.init 0 1 : crp Nat).increment 0 0 []).2.1.num_customers_of 0 =
      (crp.init 0 1 : crp Nat).num_customers_of 0 + 1 ∧
    (((crp.init 0 1 : crp Nat).increment 0 0 []).1 = 0 ∨
      ((crp.init 0 1 : crp Nat).increment 0 0 []).1 = 1) ∧
    ((crp.init 0 1 : crp Nat).increment 0 0 []).2.1.num_tables_ =
      (crp.init 0 1 : crp Nat).num_tables_ +
        ((crp.init 0 1 : crp Nat).increment 0 0 []).1.toNat ∧
    (((crp.init 0 1 : crp Nat).increment 0 0 []).1 = 1 ↔
      ((crp.init 0 1 : crp Nat).increment 0 0 []).2.1.num_tables_of 0 =
        (crp.init 0 1 : crp Nat).num_tables_of 0 + 1)) :=
  ⟨le_refl 0, claim_C2 _ 0 0 [] (le_refl 0)⟩

/-- C3: for every dish with exactly one seated customer, `decrement`
removes the dish's entry from `dishState` entirely, decrements `numTables`
and `numCustomers` by one each and returns `-1`; the random stream is
returned untouched — the histogram's removal logic is never consulted. -/
theorem claim_C3 {D : Type} [DecidableEq D] (c : crp D) (dish : D)
    (eng : Engine) (hI : crp.Inv c) (h1 : c.num_customers_of dish = 1) :
    ∃ cAfter : crp D,
      c.decrement dish eng = Except.ok (-1, cAfter, eng) ∧
      alookup cAfter.dish_locs_ dish = none ∧
      (∀ t : TM, (dish, t) ∉ cAfter.dish_locs_) ∧
      cAfter.num_tables_ + 1 = c.num_tables_ ∧
      cAfter.num_customers_ + 1 = c.num_customers_ := by
  cases h : alookup c.dish_locs_ dish with
  | none =>
      exfalso
      unfold crp.num_customers_of at h1
      rw [h] at h1
      simp at h1
  | some loc =>
      have hsum : TM.num_customers loc = 1 := by
        unfold crp.num_customers_of at h1
        rw [h] at h1
        exact h1
      have hN1 : 1 ≤ c.num_customers_ := by
        have := hI.cust_le h
        omega
      have hT1 : 1 ≤ c.num_tables_ := hI.tables_pos hN1
      refine ⟨_, crp.decrement_present_one eng h hsum, ?_, ?_, ?_, ?_⟩
      · exact alookup_aerase_self h hI.nodup
      · exact crp.not_pair_mem_of_alookup_none
          (alookup_aerase_self h hI.nodup)
      · dsimp only
        omega
      · dsimp only
        omega

/-- Witness for C3 at a concrete state: one dish, one customer, one
table. -/
theorem claim_C3_witness :
    (∃ cAfter : crp Nat,
      (⟨1, 1, [(0, [1])], 0, 1, none, none⟩ : crp Nat).decrement 0 [] =
        Except.ok (-1, cAfter, []) ∧
      alookup cAfter.dish_locs_ 0 = none ∧
      (∀ t : TM, ((0 : Nat), t) ∉ cAfter.dish_locs_) ∧
      cAfter.num_tables_ + 1 =
        (⟨1, 1, [(0, [1])], 0, 1, none, none⟩ : crp Nat).num_tables_ ∧
      cAfter.num_customers_ + 1 =
        (⟨1, 1, [(0, [1])], 0, 1, none, none⟩ : crp Nat).num_customers_) :=
  claim_C3 _ 0 []
    ⟨by decide, rfl, rfl, by decide, by decide,
      le_refl 0, zero_lt_one, by norm_num⟩
    rfl

/-- C4: for every state and every dish not present in `dishState`,
`increment` followed immediately by `decrement` on the same dish (with the
stream as returned by `increment`) restores `numTables`, `numCustomers`
and the absence of the dish exactly. -/
theorem claim_C4 {D : Type} [DecidableEq D] (c : crp D) (dish : D) (p0 : ℝ)
    (eng : Engine) (habs : alookup c.dish_locs_ dish = none) :
    ∃ c2 : crp D,
      ((c.increment dish p0 eng).2.1).decrement dish
          (c.increment dish p0 eng).2.2 =
        Except.ok (-1, c2, (c.increment dish p0 eng).2.2) ∧
      c2.num_tables_ = c.num_tables_ ∧
      c2.num_customers_ = c.num_customers_ ∧
      alookup c2.dish_locs_ dish = none := by
  rw [crp.increment_absent p0 eng habs]
  dsimp only
  have hlook : alookup ((dish, ([1] : TM)) :: c.dish_locs_) dish =
      some [1] := alookup_cons_self dish [1] c.dish_locs_
  have hone : TM.num_customers ([1] : TM) = 1 := rfl
  refine ⟨_, crp.decrement_present_one
    (c := { c with dish_locs_ := (dish, ([1] : TM)) :: c.dish_locs_,
                   num_tables_ := c.num_tables_ + 1,
                   num_customers_ := c.num_customers_ + 1 }) eng hlook hone,
    ?_, ?_, ?_⟩
  · dsimp only
    omega
  · dsimp only
    omega
  · dsimp only
    have : aerase dish ((dish, ([1] : TM)) :: c.dish_locs_) =
        c.dish_locs_ := by
      simp [aerase]
    rw [this]
    exact habs

/-- Witness for C4 at a concrete input: fresh restaurant, unseen dish. -/
theorem claim_C4_witness :
    ∃ c2 : crp Nat,
      (((crp.init 0 1 : crp Nat).increment 0 0 []).2.1).decrement 0
          ((crp.init 0 1 : crp Nat).increment 0 0 []).2.2 =
        Except.ok (-1, c2, ((crp.init 0 1 : crp Nat).increment 0 0 []).2.2) ∧
      c2.num_tables_ = (crp.init 0 1 : crp Nat).num_tables_ ∧
      c2.num_customers_ = (crp.init 0 1 : crp Nat).num_customers_ ∧
      alookup c2.dish_locs_ 0 = none :=
  claim_C4 _ 0 0 [] rfl

/-- C5 counterexample: the restaurant constructed by `crp(0.5, 0.0)` —
hyperparameter-valid (`check_hyperparameters` accepts strength 0 with
positive discount), invariant-respecting and reachable, with no
customers — makes the denominator `numCustomers + strength` exactly zero,
so the C code computes `0.0·p0 / 0.0 = NaN`: not a non-negative weight.
The embedded `prob` accordingly returns `none` rather than any real. -/
theorem claim_C5_counterexample :
    crp.Reachable (crp.init (1/2) 0 : crp Nat) ∧
    crp.Inv (crp.init (1/2) 0 : crp Nat) ∧
    (crp.init (1/2) 0 : crp Nat).prob 0 1 = none := by
  refine ⟨crp.Reachable.init (1/2) 0 (by norm_num) (by norm_num)
      (by norm_num),
    ⟨by decide, rfl, rfl, by decide, by decide, by norm_num [crp.init],
      by norm_num [crp.init], by norm_num [crp.init]⟩, ?_⟩
  simp [crp.prob, crp.init]

/-- C5, amended: the claim holds away from the one degenerate family the
counterexample exhibits — whenever `numCustomers + strength ≠ 0` (under
the invariants this excludes exactly the empty restaurant with strength
zero, where the code's division is `0.0/0.0 = NaN`): for every
invariant-respecting state and every `p0 ≥ 0`, `prob dish p0` returns
`some` of `r·p0 / (numCustomers + strength)` for an absent dish and of
`(customers(dish) − discount·tables(dish) + r·p0) / (numCustomers +
strength)` for a present dish, where `r = numTables·discount + strength`,
and every returned weight is non-negative.  The operation is a pure read:
it is a function of the state that returns no modified state. -/
theorem claim_C5 {D : Type} [DecidableEq D] (c : crp D) (dish : D) (p0 : ℝ)
    (hI : crp.Inv c) (hp0 : 0 ≤ p0)
    (hden : ((c.num_customers_ : ℝ) + c.strength_) ≠ 0) :
    (alookup c.dish_locs_ dish = none →
      c.prob dish p0 =
        some (((c.num_tables_ : ℝ) * c.discount_ + c.strength_) * p0 /
          ((c.num_customers_ : ℝ) + c.strength_))) ∧
    (∀ loc, alookup c.dish_locs_ dish = some loc →
      c.prob dish p0 =
        some ((((TM.num_customers loc : ℝ) -
            c.discount_ * (TM.num_tables loc : ℝ)) +
          ((c.num_tables_ : ℝ) * c.discount_ + c.strength_) * p0) /
          ((c.num_customers_ : ℝ) + c.strength_))) ∧
    (∀ x : ℝ, c.prob dish p0 = some x → 0 ≤ x) := by
  obtain ⟨hd0, hd1, hsd⟩ := hI.valid
  refine ⟨fun h => by simp [crp.prob, hden, h],
    fun loc h => by simp [crp.prob, hden, h], ?_⟩
  intro x hx
  cases h : alookup c.dish_locs_ dish with
  | none =>
      rw [show c.prob dish p0 =
          some (((c.num_tables_ : ℝ) * c.discount_ + c.strength_) * p0 /
            ((c.num_customers_ : ℝ) + c.strength_)) by
        simp [crp.prob, hden, h]] at hx
      simp only [Option.some.injEq] at hx
      subst hx
      rcases Nat.eq_zero_or_pos c.num_customers_ with hN | hN
      · obtain ⟨_, hT⟩ := hI.empty_of_no_customers hN
        rw [hN, hT]
        have hs0 : c.strength_ ≠ 0 := by
          intro hs
          apply hden
          rw [hN, hs]
          simp
        simp only [Nat.cast_zero, zero_mul, zero_add]
        rw [mul_comm, mul_div_assoc, div_self hs0, mul_one]
        exact hp0
      · have hN1 : (1 : ℝ) ≤ (c.num_customers_ : ℝ) :=
          Nat.one_le_cast.mpr hN
        have hposden : (0 : ℝ) < (c.num_customers_ : ℝ) + c.strength_ := by
          linarith
        have hT1 : (1 : ℝ) ≤ (c.num_tables_ : ℝ) :=
          Nat.one_le_cast.mpr (hI.tables_pos hN)
        have hr : (0 : ℝ) ≤ (c.num_tables_ : ℝ) * c.discount_ + c.strength_ := by
          have : c.discount_ ≤ (c.num_tables_ : ℝ) * c.discount_ :=
            le_mul_of_one_le_left hd0 hT1
          linarith
        exact div_nonneg (mul_nonneg hr hp0) hposden.le
  | some loc =>
      rw [show c.prob dish p0 =
          some ((((TM.num_customers loc : ℝ) -
              c.discount_ * (TM.num_tables loc : ℝ)) +
            ((c.num_tables_ : ℝ) * c.discount_ + c.strength_) * p0) /
            ((c.num_customers_ : ℝ) + c.strength_)) by
        simp [crp.prob, hden, h]] at hx
      simp only [Option.some.injEq] at hx
      subst hx
      have hmem := alookup_mem h
      have hcs : 1 ≤ TM.num_customers loc := hI.loc_sum_pos h
      have hN : 1 ≤ c.num_customers_ := le_trans hcs (hI.cust_le h)
      have hN1 : (1 : ℝ) ≤ (c.num_customers_ : ℝ) := Nat.one_le_cast.mpr hN
      have hposden : (0 : ℝ) < (c.num_customers_ : ℝ) + c.strength_ := by
        linarith
      have hT1 : (1 : ℝ) ≤ (c.num_tables_ : ℝ) :=
        Nat.one_le_cast.mpr (hI.tables_pos hN)
      have hr : (0 : ℝ) ≤ (c.num_tables_ : ℝ) * c.discount_ + c.strength_ := by
        have : c.discount_ ≤ (c.num_tables_ : ℝ) * c.discount_ :=
          le_mul_of_one_le_left hd0 hT1
        linarith
      have hts : (TM.num_tables loc : ℝ) ≤ (TM.num_customers loc : ℝ) :=
        Nat.cast_le.mpr (length_le_sum_of_one_le loc (hI.sizes _ hmem))
      have hdts : c.discount_ * (TM.num_tables loc : ℝ) ≤
          (TM.num_tables loc : ℝ) :=
        mul_le_of_le_one_left (Nat.cast_nonneg _) hd1.le
      have hnum : (0 : ℝ) ≤ (TM.num_customers loc : ℝ) -
          c.discount_ * (TM.num_tables loc : ℝ) := by linarith
      exact div_nonneg (by positivity) hposden.le

/-- Witness for C5 at a concrete invariant state with nonzero denominator
and both an absent and (vacuously instantiated) present dish. -/
theorem claim_C5_witness :
    ((alookup (⟨1, 1, [(0, [1])], 0, 1, none, none⟩ : crp Nat).dish_locs_ 1 =
        none →
      (⟨1, 1, [(0, [1])], 0, 1, none, none⟩ : crp Nat).prob 1 1 =
        some ((((⟨1, 1, [(0, [1])], 0, 1, none, none⟩ :
              crp Nat).num_tables_ : ℝ) *
            (⟨1, 1, [(0, [1])], 0, 1, none, none⟩ : crp Nat).discount_ +
            (⟨1, 1, [(0, [1])], 0, 1, none, none⟩ : crp Nat).strength_) * 1 /
          (((⟨1, 1, [(0, [1])], 0, 1, none, none⟩ :
              crp Nat).num_customers_ : ℝ) +
            (⟨1, 1, [(0, [1])], 0, 1, none, none⟩ : crp Nat).strength_))) ∧
    (∀ loc, alookup
        (⟨1, 1, [(0, [1])], 0, 1, none, none⟩ : crp Nat).dish_locs_ 1 =
          some loc →
      (⟨1, 1, [(0, [1])], 0, 1, none, none⟩ : crp Nat).prob 1 1 =
        some ((((TM.num_customers loc : ℝ) -
            (⟨1, 1, [(0, [1])], 0, 1, none, none⟩ : crp Nat).discount_ *
              (TM.num_tables loc : ℝ)) +
          (((⟨1, 1, [(0, [1])], 0, 1, none, none⟩ :
              crp Nat).num_tables_ : ℝ) *
              (⟨1, 1, [(0, [1])], 0, 1, none, none⟩ : crp Nat).discount_ +
              (⟨1, 1, [(0, [1])], 0, 1, none, none⟩ : crp Nat).strength_) * 1) /
          (((⟨1, 1, [(0, [1])], 0, 1, none, none⟩ :
              crp Nat).num_customers_ : ℝ) +
            (⟨1, 1, [(0, [1])], 0, 1, none, none⟩ : crp Nat).strength_))) ∧
    (∀ x : ℝ,
      (⟨1, 1, [(0, [1])], 0, 1, none, none⟩ : crp Nat).prob 1 1 = some x →
      0 ≤ x)) :=
  claim_C5 _ 1 1
    ⟨by decide, rfl, rfl, by decide, by decide,
      le_refl 0, zero_lt_one, by norm_num⟩
    zero_le_one
    (show ((1 : Nat) : ℝ) + 1 ≠ 0 by norm_num)

/-- C8: the per-dish accessor `num_customers(dish)` — embedded from the
evident intent, since the source's line 102 is ill-formed (it calls
`num_customers()` on the iterator's `std::pair`) — returns 0 for an absent
dish and the table manager's customer count for a present one; it takes the
state read-only and returns no modified state. -/
theorem claim_C8 {D : Type} [DecidableEq D] (c : crp D) (dish : D) :
    (alookup c.dish_locs_ dish = none → c.num_customers_of dish = 0) ∧
    (∀ loc, alookup c.dish_locs_ dish = some loc →
      c.num_customers_of dish = TM.num_customers loc) := by
  constructor
  · intro h
    simp [crp.num_customers_of, h]
  · intro loc h
    simp [crp.num_customers_of, h]

/-- Witness for C8 at a concrete state. -/
theorem claim_C8_witness :
    ((alookup (⟨1, 1, [(0, [1])], 0, 1, none, none⟩ : crp Nat).dish_locs_ 5 =
        none →
      (⟨1, 1, [(0, [1])], 0, 1, none, none⟩ : crp Nat).num_customers_of 5 =
        0) ∧
    (∀ loc, alookup
        (⟨1, 1, [(0, [1])], 0, 1, none, none⟩ : crp Nat).dish_locs_ 5 =
          some loc →
      (⟨1, 1, [(0, [1])], 0, 1, none, none⟩ : crp Nat).num_customers_of 5 =
        TM.num_customers loc)) :=
  claim_C8 _ 5

/-- C9: with at least one hyperprior present and no seated customers,
`resample_hyperparameters` succeeds as a no-op: the full state (counters,
map, hyperparameters, priors) and the random stream are returned exactly
as given. -/
theorem claim_C9 {D : Type} [DecidableEq D] (c : crp D) (eng : Engine)
    (nloop niterations : Nat)
    (hp : c.has_discount_prior = true ∨ c.has_strength_prior = true)
    (hn : c.num_customers_ = 0) :
    c.resample_hyperparameters eng nloop niterations = some (c, eng) := by
  unfold crp.resample_hyperparameters
  have hcond : ¬(c.has_discount_prior = false ∧
      c.has_strength_prior = false) := by
    rcases hp with h | h <;> simp [h]
  rw [if_neg hcond, if_pos (show c.num_customers = 0 from hn)]

/-- Witness for C9 at a concrete state with both priors and no
customers. -/
theorem claim_C9_witness :
    (crp.init_prior 2 2 1 1 (1/2) 1 : crp Nat).resample_hyperparameters
        [3, 7] 5 10 =
      some ((crp.init_prior 2 2 1 1 (1/2) 1 : crp Nat), [3, 7]) :=
  claim_C9 _ [3, 7] 5 10 (Or.inl rfl) rfl

/-- C10: `decrement` on an absent dish first inserts a fresh zero-customer
histogram entry (the `dish_locs_[dish]` side effect), and only then
evaluates the `assert(loc.num_customers())` precondition: at the moment of
detection the map contains the dish with zero customers (violating the
present-iff-customers ≥ 1 invariant), so the failing call is not
state-preserving. -/
theorem claim_C10 {D : Type} [DecidableEq D] (c : crp D) (dish : D)
    (eng : Engine) (habs : alookup c.dish_locs_ dish = none) :
    c.decrement dish eng =
      Except.error
        { c with dish_locs_ := (dish, ([] : TM)) :: c.dish_locs_ } ∧
    alookup ((dish, ([] : TM)) :: c.dish_locs_) dish = some ([] : TM) ∧
    TM.num_customers ([] : TM) = 0 ∧
    ((dish, ([] : TM)) :: c.dish_locs_) ≠ c.dish_locs_ := by
  refine ⟨crp.decrement_absent eng habs, alookup_cons_self dish [] _, rfl,
    ?_⟩
  intro heq
  have := congrArg (fun l => alookup l dish) heq
  simp only [alookup_cons_self, habs] at this
  exact Option.noConfusion this

/-- Witness for C10 at a concrete input: fresh restaurant, unseen dish. -/
theorem claim_C10_witness :
    (crp.init 0 1 : crp Nat).decrement 5 [] =
      Except.error
        { (crp.init 0 1 : crp Nat) with
            dish_locs_ := ((5 : Nat), ([] : TM)) :: [] } ∧
    alookup (((5 : Nat), ([] : TM)) :: []) 5 = some ([] : TM) ∧
    TM.num_customers ([] : TM) = 0 ∧
    (((5 : Nat), ([] : TM)) :: []) ≠
      (crp.init 0 1 : crp Nat).dish_locs_ :=
  claim_C10 _ 5 [] rfl

/-! Helpers for the likelihood claims. -/

theorem Gamma_ne_zero_of_neg_one_lt {x : ℝ} (h1 : -1 < x) (h0 : x ≠ 0) :
    Real.Gamma x ≠ 0 := by
  apply Real.Gamma_ne_zero
  intro m
  cases m with
  | zero => simpa using h0
  | succ k =>
      intro hc
      rw [hc] at h1
      have hk : (0 : ℝ) ≤ (k : ℝ) := Nat.cast_nonneg k
      push_cast at h1
      linarith

theorem Gamma_ne_zero_of_pos {x : ℝ} (h : 0 < x) : Real.Gamma x ≠ 0 :=
  (Real.Gamma_pos_of_pos h).ne'

theorem lgamma_one_eq : lgamma 1 = 0 := by
  unfold lgamma
  rw [Real.Gamma_one]
  simp

theorem lgamma_two_eq : lgamma 2 = 0 := by
  unfold lgamma
  rw [Real.Gamma_two]
  simp

theorem Gamma_four_eq : Real.Gamma 4 = 6 := by
  have h := Real.Gamma_nat_eq_factorial 3
  have h3 : ((3 : ℕ) : ℝ) + 1 = 4 := by norm_num
  rw [h3] at h
  rw [h]
  norm_num [Nat.factorial]

theorem lgamma_four_eq : lgamma 4 = Real.log 6 := by
  unfold lgamma
  rw [Gamma_four_eq, abs_of_pos (by norm_num : (0:ℝ) < 6)]

theorem exp_quarter_lt : Real.exp (1/4) < 3/2 := by
  have hne : ((-(1/4) : ℝ)) ≠ 0 := by norm_num
  have h := Real.add_one_lt_exp hne
  rw [Real.exp_neg] at h
  have hE : 0 < Real.exp (1/4) := Real.exp_pos _
  have hinv : Real.exp (1/4) * (Real.exp (1/4))⁻¹ = 1 :=
    mul_inv_cancel₀ hE.ne'
  nlinarith

theorem log_three_halves_gt : (1/4 : ℝ) < Real.log (3/2) := by
  rw [Real.lt_log_iff_exp_lt (by norm_num : (0:ℝ) < 3/2)]
  exact exp_quarter_lt

/-- The hyperprior contribution of the state `init_prior 2 2 1 1 (1/2)
(-(1/4))` evaluates to `log 6 - 2 log 2 - 1/4 = log (3/2) - 1/4 > 0`. -/
theorem c7_contribution_pos :
    0 < (crp.init_prior 2 2 1 1 (1/2) (-(1/4)) : crp Nat).hyperPriorLL
      (1/2) (-(1/4)) := by
  have hbeta : Md.log_beta_density (1/2) 2 2 =
      Real.log (1/2) + Real.log (1/2) + Real.log 6 := by
    unfold Md.log_beta_density
    norm_num [lgamma_two_eq, lgamma_four_eq]
  have hgamma : Md.log_gamma_density (-(1/4) + 1/2) 1 1 = -(1/4) := by
    unfold Md.log_gamma_density
    norm_num [lgamma_one_eq]
  have hval : (crp.init_prior 2 2 1 1 (1/2) (-(1/4)) : crp Nat).hyperPriorLL
      (1/2) (-(1/4)) =
      (Real.log (1/2) + Real.log (1/2) + Real.log 6) + (-(1/4)) := by
    show Md.log_beta_density (1/2) 2 2 +
        Md.log_gamma_density (-(1/4) + 1/2) 1 1 = _
    rw [hbeta, hgamma]
  rw [hval]
  have hlog2 : Real.log (1/2) = -Real.log 2 := by
    rw [one_div, Real.log_inv]
  have h6 : Real.log 6 = Real.log 2 + Real.log 2 + Real.log (3/2) := by
    have h4 : Real.log 4 = Real.log 2 + Real.log 2 := by
      rw [show (4:ℝ) = 2 * 2 by norm_num,
        Real.log_mul (by norm_num) (by norm_num)]
    rw [show (6:ℝ) = 4 * (3/2) by norm_num,
      Real.log_mul (by norm_num) (by norm_num), h4]
  rw [hlog2, h6]
  have := log_three_halves_gt
  linarith

/-- C6 counterexample: the state built by `crp(2, 2, 1, 1, 0, 1)` — both
priors present, discount 0, strength 1, no customers — is reachable,
satisfies the data-model invariants (including positive prior shapes), yet
its `log_likelihood()` computation is not finite: the Beta log-density
evaluates `log(discount)` at `discount = 0`. -/
theorem claim_C6_counterexample :
    crp.Reachable (crp.init_prior 2 2 1 1 0 1 : crp Nat) ∧
    crp.Inv (crp.init_prior 2 2 1 1 0 1 : crp Nat) ∧
    crp.PriorsOk (crp.init_prior 2 2 1 1 0 1 : crp Nat) ∧
    ¬ crp.LLFiniteAt (crp.init_prior 2 2 1 1 0 1 : crp Nat)
        (crp.init_prior 2 2 1 1 0 1 : crp Nat).discount_
        (crp.init_prior 2 2 1 1 0 1 : crp Nat).strength_ := by
  refine ⟨crp.Reachable.init_prior 2 2 1 1 0 1 le_rfl zero_lt_one
      (by norm_num),
    ⟨by decide, rfl, rfl, by decide, by decide,
      by norm_num [crp.init_prior], by norm_num [crp.init_prior],
      by norm_num [crp.init_prior]⟩, ⟨?_, ?_⟩, ?_⟩
  · intro ab hab
    simp only [crp.init_prior, Option.mem_def, Option.some.injEq] at hab
    subst hab
    norm_num
  · intro sr hsr
    simp only [crp.init_prior, Option.mem_def, Option.some.injEq] at hsr
    subst hsr
    norm_num
  · intro h
    exact lt_irrefl 0 ((h.1 (2, 2) rfl).1)

/-- C6, amended: the claim holds for every invariant-respecting state in
which the discount is positive whenever a discount prior is present (the
proviso the counterexample forces) and the hyperprior contribution is
`≤ 0` (so the `assert(lp <= 0.0)` of line 169 passes — claim C7 shows
valid states violating it, where the program aborts instead of
returning): the `log_likelihood()` computation is finite, and with zero
customers it returns exactly the sum of the hyperprior log-densities that
are present (zero when none is). -/
theorem claim_C6 {D : Type} [DecidableEq D] (c : crp D) (hI : crp.Inv c)
    (hP : crp.PriorsOk c)
    (hd : c.discount_prior_.isSome = true → 0 < c.discount_)
    (hlp : c.hyperPriorLL c.discount_ c.strength_ ≤ 0) :
    crp.LLFiniteAt c c.discount_ c.strength_ ∧
    (c.num_customers_ = 0 →
      c.log_likelihood0 = some (c.hyperPriorLL c.discount_ c.strength_)) := by
  obtain ⟨hd0, hd1, hsd⟩ := hI.valid
  constructor
  · refine ⟨?_, ?_, ?_⟩
    · intro ab hab
      have hds : c.discount_prior_.isSome = true := by
        rw [Option.mem_def] at hab
        rw [hab]
        rfl
      have hpos := hd hds
      have hs := hP.1 ab hab
      exact ⟨hpos, hd1, Gamma_ne_zero_of_pos hs.1, Gamma_ne_zero_of_pos hs.2,
        Gamma_ne_zero_of_pos (by linarith [hs.1, hs.2])⟩
    · intro sr hsr
      have hs := hP.2 sr hsr
      exact ⟨hs.2, by linarith, Gamma_ne_zero_of_pos hs.1⟩
    · intro hn
      have hN1 : 1 ≤ c.num_customers_ := Nat.one_le_iff_ne_zero.mpr hn
      have hNr : (1 : ℝ) ≤ (c.num_customers_ : ℝ) := Nat.one_le_cast.mpr hN1
      by_cases hdpos : 0 < c.discount_
      · rw [if_pos hdpos]
        have hsneg : -1 < c.strength_ := by linarith
        have hsd_div : -1 < c.strength_ / c.discount_ := by
          rw [lt_div_iff hdpos]
          linarith
        refine ⟨?_, ?_, ?_, ?_, ?_⟩
        · intro hs0
          exact ⟨Gamma_ne_zero_of_neg_one_lt hsneg hs0,
            Gamma_ne_zero_of_neg_one_lt hsd_div
              (div_ne_zero hs0 hdpos.ne')⟩
        · exact Gamma_ne_zero_of_pos (by linarith)
        · have hT : (1 : ℝ) ≤ (c.num_tables_ : ℝ) :=
            Nat.one_le_cast.mpr (hI.tables_pos hN1)
          exact Gamma_ne_zero_of_pos (by linarith)
        · exact Gamma_ne_zero_of_pos (by linarith)
        · intro p hp sz hsz
          have h1 : (1 : ℝ) ≤ (sz : ℝ) :=
            Nat.one_le_cast.mpr (hI.sizes p hp sz hsz)
          exact Gamma_ne_zero_of_pos (by linarith)
      · have hdz : c.discount_ = 0 := le_antisymm (not_lt.mp hdpos) hd0
        rw [if_neg hdpos, if_pos hdz]
        have hspos : 0 < c.strength_ := by
          rw [hdz] at hsd
          simpa using hsd
        have hTnn : (0 : ℝ) ≤ (c.num_tables_ : ℝ) := Nat.cast_nonneg _
        refine ⟨hspos, Gamma_ne_zero_of_pos hspos,
          Gamma_ne_zero_of_pos (by linarith), ?_⟩
        intro p hp
        have hne := hI.nonempty p hp
        have h1 : 0 < p.2.length := List.length_pos.mpr hne
        exact Gamma_ne_zero_of_pos
          (by exact_mod_cast Nat.cast_pos.mpr h1)
  · intro hn
    have h1 : ¬ 0 < c.hyperPriorLL c.discount_ c.strength_ :=
      not_lt.mpr hlp
    simp [crp.log_likelihood0, crp.log_likelihood, hn, h1]

/-- The hyperprior contribution of the C6 witness state `crp(1, 1, 1, 1,
1/2, 1)`: the Beta(1,1) log-density is identically zero and the
Gamma(1,1) log-density at `strength + discount = 3/2` is `-3/2`, so the
line-169 assertion passes there. -/
theorem c6_witness_contribution :
    (crp.init_prior 1 1 1 1 (1/2) 1 : crp Nat).hyperPriorLL (1/2) 1 =
      -(3/2) := by
  show Md.log_beta_density (1/2) 1 1 +
      Md.log_gamma_density (1 + 1/2) 1 1 = _
  unfold Md.log_beta_density Md.log_gamma_density
  norm_num [lgamma_one_eq, lgamma_two_eq]

/-- Witness for C6 at a concrete state: priors `Beta(1,1)` and
`Gamma(1,1)`, discount `1/2`, strength `1`, no customers; its hyperprior
contribution is `-3/2 ≤ 0`. -/
theorem claim_C6_witness :
    crp.LLFiniteAt (crp.init_prior 1 1 1 1 (1/2) 1 : crp Nat)
      (crp.init_prior 1 1 1 1 (1/2) 1 : crp Nat).discount_
      (crp.init_prior 1 1 1 1 (1/2) 1 : crp Nat).strength_ ∧
    ((crp.init_prior 1 1 1 1 (1/2) 1 : crp Nat).num_customers_ = 0 →
      (crp.init_prior 1 1 1 1 (1/2) 1 : crp Nat).log_likelihood0 =
        some ((crp.init_prior 1 1 1 1 (1/2) 1 : crp Nat).hyperPriorLL
          (crp.init_prior 1 1 1 1 (1/2) 1 : crp Nat).discount_
          (crp.init_prior 1 1 1 1 (1/2) 1 : crp Nat).strength_)) :=
  claim_C6 _
    ⟨by decide, rfl, rfl, by decide, by decide,
      by norm_num [crp.init_prior], by norm_num [crp.init_prior],
      by norm_num [crp.init_prior]⟩
    ⟨by
      intro ab hab
      simp only [crp.init_prior, Option.mem_def, Option.some.injEq] at hab
      subst hab
      norm_num,
     by
      intro sr hsr
      simp only [crp.init_prior, Option.mem_def, Option.some.injEq] at hsr
      subst hsr
      norm_num⟩
    (fun _ => by norm_num [crp.init_prior])
    (show (crp.init_prior 1 1 1 1 (1/2) 1 : crp Nat).hyperPriorLL
        (1/2) 1 ≤ 0 by
      rw [c6_witness_contribution]
      norm_num)

/-- Consistency of the partial embedding with the abort the assert
causes: at the valid state `crp(2, 2, 1, 1, 1/2, -1/4)` with no seated
customers the hyperprior contribution is positive, so `log_likelihood()`
hits `assert(lp <= 0.0)` and returns no value at all. -/
theorem log_likelihood0_aborts_on_positive_contribution :
    (crp.init_prior 2 2 1 1 (1/2) (-(1/4)) : crp Nat).log_likelihood0 =
      none := by
  unfold crp.log_likelihood0 crp.log_likelihood
  rw [if_pos]
  exact c7_contribution_pos

/-- C7 counterexample: at the reachable, hyperparameter-valid state
`crp(2, 2, 1, 1, 1/2, -1/4)` (positive prior shapes), the hyperprior
contribution equals `log(3/2) - 1/4 > 0`, so it is not `≤ 0` and the
`assert(lp <= 0.0)` of line 169 fails. -/
theorem claim_C7_counterexample :
    crp.ValidHyper (crp.init_prior 2 2 1 1 (1/2) (-(1/4)) : crp Nat) ∧
    crp.PriorsOk (crp.init_prior 2 2 1 1 (1/2) (-(1/4)) : crp Nat) ∧
    ¬ ((crp.init_prior 2 2 1 1 (1/2) (-(1/4)) : crp Nat).hyperPriorLL
        (crp.init_prior 2 2 1 1 (1/2) (-(1/4)) : crp Nat).discount_
        (crp.init_prior 2 2 1 1 (1/2) (-(1/4)) : crp Nat).strength_ ≤ 0) := by
  refine ⟨⟨by norm_num [crp.init_prior], by norm_num [crp.init_prior],
      by norm_num [crp.init_prior]⟩, ⟨?_, ?_⟩,
    not_le.mpr c7_contribution_pos⟩
  · intro ab hab
    simp only [crp.init_prior, Option.mem_def, Option.some.injEq] at hab
    subst hab
    norm_num
  · intro sr hsr
    simp only [crp.init_prior, Option.mem_def, Option.some.injEq] at hsr
    subst hsr
    norm_num

/-- C7, amended: the hyperprior contribution of `log_likelihood` is not
guaranteed non-positive — there is a state with valid hyperparameters and
positive prior shape parameters whose contribution is strictly positive,
so the assertion guarding it can fail. -/
theorem claim_C7 :
    ∃ c : crp Nat, crp.ValidHyper c ∧ crp.PriorsOk c ∧
      0 < c.hyperPriorLL c.discount_ c.strength_ := by
  refine ⟨crp.init_prior 2 2 1 1 (1/2) (-(1/4)),
    ⟨by norm_num [crp.init_prior], by norm_num [crp.init_prior],
      by norm_num [crp.init_prior]⟩, ⟨?_, ?_⟩,
    c7_contribution_pos⟩
  · intro ab hab
    simp only [crp.init_prior, Option.mem_def, Option.some.injEq] at hab
    subst hab
    norm_num
  · intro sr hsr
    simp only [crp.init_prior, Option.mem_def, Option.some.injEq] at hsr
    subst hsr
    norm_num

end Cpyp
